import Mathlib

/-!
Shallow embedding of `combine.py`, the Markdown aggregation tool: front-matter
extraction, Markdown reflow normalization, record collection and sorting, TOC
generation, and the render step's resource lifecycle, together with theorems
about the properties stated in the specification.

Text is modelled as `List Char` (Python `str`), mirroring the source's
character-level operations.  The external YAML parser is out of scope and is
abstracted as a function argument (`none` models `yaml.YAMLError`).
-/

namespace Combine

/-- The whitespace characters recognised by Python `str.strip()` (the inputs
considered are ASCII). -/
def pyWs (c : Char) : Bool :=
  c = ' ' || c = '\t' || c = '\n' || c = '\r' || c = Char.ofNat 11 || c = Char.ofNat 12

/-- Python `str.strip()`: drop whitespace from both ends. -/
def pyStrip (s : List Char) : List Char :=
  ((s.dropWhile pyWs).reverse.dropWhile pyWs).reverse

/-- Scanning helper for `content.find('---', i)`: `t` is the suffix of the text
starting at absolute index `i`; returns the absolute index of the first
occurrence of `"---"`, or `none` (Python `-1`). -/
def findFrom (i : Nat) : List Char → Option Nat
  | [] => none
  | c :: t => if ['-', '-', '-'].isPrefixOf (c :: t) then some i else findFrom (i + 1) t

/-- `content.find('---', 3)` (source line 20). -/
def find3 (content : List Char) : Option Nat := findFrom 3 (content.drop 3)

/-- Scalar front-matter values (the YAML subset the tool consumes). -/
inductive FMVal where
  | str (s : List Char)
  | int (n : Int)
deriving DecidableEq

/-- A parsed front-matter mapping: an association list of keys to values. -/
abbrev FM := List (List Char × FMVal)

/-- Python `key in front_matter`. -/
def hasKey (fm : FM) (k : List Char) : Bool := fm.any (fun e => e.1 == k)

/-- Python `front_matter.get(key, default)`. -/
def getD (fm : FM) (k : List Char) (d : FMVal) : FMVal :=
  match fm.find? (fun e => e.1 == k) with
  | some e => e.2
  | none => d

/-- `extract_yaml_front_matter` (source lines 17-29), with the external YAML
parser abstracted as `parse` (`none` models `yaml.YAMLError`). -/
def extract_yaml_front_matter (parse : List Char → Option FM) (content : List Char) :
    FM × List Char :=
  if ['-', '-', '-'].isPrefixOf content then
    match find3 content with
    | some e =>
      match parse (pyStrip ((content.drop 3).take (e - 3))) with
      | some d => (d, pyStrip (content.drop (e + 3)))
      | none => ([], content)
    | none => ([], content)
  else ([], content)

/-- A table line: the trimmed text starts and ends with a pipe
(source line 34). -/
def isTableLine (l : List Char) : Bool :=
  ['|'].isPrefixOf (pyStrip l) && ['|'].isSuffixOf (pyStrip l)

/-- A bulleted list-item line: the trimmed text starts with `"- "`
(source lines 54, 60). -/
def isListLine (l : List Char) : Bool := ['-', ' '].isPrefixOf (pyStrip l)

/-- `content.split('\n')`.  The result is never empty; `headI` defaults to the
empty line, which is only consulted when the tail split is nonempty. -/
def splitNl : List Char → List (List Char)
  | [] => [[]]
  | c :: t =>
    if c = '\n' then [] :: splitNl t
    else (c :: (splitNl t).headI) :: (splitNl t).tail

/-- `'\n'.join(lines)`. -/
def joinNl : List (List Char) → List Char
  | [] => []
  | [l] => l
  | l :: r => l ++ '\n' :: joinNl r

/-- The reflow loop of `ensure_proper_markdown_formatting` (source lines
36-64).  `fuel` bounds the recursion; each step consumes at least one line, so
`rest.length + 1` is always enough.  `po` is `some (is_table_line[i-1])` for
the previous source line (`none` when `i = 0`); `acc` holds `result_lines` in
reverse. -/
def fmtGo : Nat → Option Bool → List (List Char) → List (List Char) → List (List Char)
  | 0, _, acc, rest => acc.reverse ++ rest
  | _ + 1, _, acc, [] => acc.reverse
  | n + 1, po, acc, l :: rest =>
    if isTableLine l then
      let acc1 :=
        if po == some false && !acc.isEmpty && !(pyStrip acc.headI).isEmpty then
          [] :: acc
        else acc
      let run := (l :: rest).takeWhile isTableLine
      let rest1 := (l :: rest).dropWhile isTableLine
      let acc2 := run.reverse ++ acc1
      let acc3 :=
        match rest1 with
        | [] => acc2
        | m :: _ => if !isTableLine m && !(pyStrip m).isEmpty then [] :: acc2 else acc2
      fmtGo n (some true) acc3 rest1
    else
      let acc1 :=
        if isListLine l && !(po == none) && !acc.isEmpty && !(pyStrip acc.headI).isEmpty
            && !isListLine acc.headI then
          [] :: acc
        else acc
      let acc2 := l :: acc1
      let acc3 :=
        match rest with
        | [] => acc2
        | m :: _ => if isListLine l && !isListLine m && !(pyStrip m).isEmpty then [] :: acc2 else acc2
      fmtGo n (some false) acc3 rest

/-- The tail of the regex `<!--.*?-->\s*\n- ` (source line 67): after `-->`,
greedy `\s*` backtracks, so a match requires a nonempty whitespace run whose
final character is a newline, followed immediately by `"- "`; returns the
remainder after the match. -/
def wsDash (s : List Char) : Option (List Char) :=
  let w := s.takeWhile pyWs
  let rest := s.dropWhile pyWs
  if !w.isEmpty && w.getLast? == some '\n' && ['-', ' '].isPrefixOf rest then
    some (rest.drop 2)
  else none

/-- The lazy `.*?-->` search of the regex: given the characters after `<!--`,
try each occurrence of `-->` in turn (never crossing a newline, since `.` does
not match a newline) until the rest of the pattern matches. -/
def tryCommentBody : List Char → Option (List Char)
  | [] => none
  | c :: t =>
    match (if ['-', '-', '>'].isPrefixOf (c :: t) then wsDash (t.drop 2) else none) with
    | some r => some r
    | none => if c = '\n' then none else tryCommentBody t

/-- The left-to-right scan of `re.sub(r'<!--.*?-->\s*\n- ', '\n\n- ', content)`
(source line 67): at each position try to match the pattern; on a match emit
the replacement and continue after the match.  `fuel` bounds the recursion;
every step consumes at least one character, so `s.length` is always enough. -/
def subGo : Nat → List Char → List Char
  | 0, s => s
  | _ + 1, [] => []
  | n + 1, c :: t =>
    match (if c = '<' && ['!', '-', '-'].isPrefixOf t then tryCommentBody (t.drop 3) else none) with
    | some r => '\n' :: '\n' :: '-' :: ' ' :: subGo n r
    | none => c :: subGo n t

/-- `re.sub(r'<!--.*?-->\s*\n- ', '\n\n- ', s)` (source line 67). -/
def subComment (s : List Char) : List Char := subGo s.length s

/-- `ensure_proper_markdown_formatting` (source lines 31-68). -/
def ensure_proper_markdown_formatting (content : List Char) : List Char :=
  let lines := splitNl content
  subComment (joinNl (fmtGo (lines.length + 1) none [] lines))

/-- Input class for the reflow claims: only table lines and prose lines, i.e.
no list-item lines (neither by the source's trimmed-prefix classification nor
as a raw `"- "` line prefix). -/
def tableProseOnly (content : List Char) : Bool :=
  (splitNl content).all fun l => !isListLine l && !(['-', ' '].isPrefixOf l)

/-- "Already well-formatted" input: a fixed point of the normalizer. -/
def isWellFormatted (content : List Char) : Bool :=
  ensure_proper_markdown_formatting content == content

/-- Modelled from the spec (section 4.2): "Contiguous table-line runs are
passed through verbatim, with a blank line inserted before the run if the
preceding emitted line is non-table and non-blank, and after the run if the
following line is non-table and non-blank."  Non-table lines (no list items
occur in the claim's input class) are copied unchanged.  `prev` is the
preceding emitted line; `fuel` bounds the recursion as in `fmtGo`. -/
def reflowGo : Nat → Option (List Char) → List (List Char) → List (List Char)
  | 0, _, rest => rest
  | _ + 1, _, [] => []
  | n + 1, prev, l :: rest =>
    if isTableLine l then
      let pre :=
        match prev with
        | some p => if !isTableLine p && !(pyStrip p).isEmpty then [([] : List Char)] else []
        | none => []
      let run := (l :: rest).takeWhile isTableLine
      let rest1 := (l :: rest).dropWhile isTableLine
      let post :=
        match rest1 with
        | m :: _ => if !isTableLine m && !(pyStrip m).isEmpty then [([] : List Char)] else []
        | [] => []
      let prev1 := if post.isEmpty then run.getLast? else some []
      pre ++ run ++ post ++ reflowGo n prev1 rest1
    else
      l :: reflowGo n (some l) rest

/-- The spec-side reflow (section 4.2) of a whole text, for comparison with
`ensure_proper_markdown_formatting`. -/
def reflowSpec (content : List Char) : List Char :=
  joinNl (reflowGo ((splitNl content).length + 1) none (splitNl content))

/-- The sentinel markers of `is_test_file` (source line 72). -/
def testIndicators : List (List Char) :=
  [("doctest:".toList), ("Extension:".toList), ("# Preamble".toList)]

/-- `is_test_file` (source lines 70-73): any sentinel marker occurs in the
first 512 characters. -/
def is_test_file (content : List Char) : Bool :=
  testIndicators.any (fun ind => decide (ind <:+: content.take 512))

/-- A Document Record (the dict built at source lines 109-115) with the
statically known field types: in every document the tool accepts, titles and
parents are strings and `nav_order` is an integer (a non-string title or
non-integer order would make the source raise later, in the TOC generator or
in the sort).  The source also stores the file path, which no claim here
consults. -/
structure MdRecord where
  title : List Char
  parent : List Char
  nav_order : Int
  content : List Char
deriving DecidableEq

/-- Read a front-matter value as a string (titles and parents; see
`MdRecord`). -/
def asStr : FMVal → List Char
  | .str s => s
  | .int _ => []

/-- Read a front-matter value as an integer (`nav_order`; see `MdRecord`).
A missing key yields the default 999 at the call site. -/
def asInt : FMVal → Int
  | .int n => n
  | .str _ => 999

/-- `process_markdown_file` (source lines 101-115) on file content that was
read successfully, with the YAML parser abstracted as `parse`. -/
def process_markdown_file (parse : List Char → Option FM) (content : List Char) :
    Option MdRecord :=
  if is_test_file content then none
  else
    let fmrc := extract_yaml_front_matter parse content
    let body := ensure_proper_markdown_formatting fmrc.2
    if hasKey fmrc.1 ("title".toList) && hasKey fmrc.1 ("parent".toList) then
      some { title := asStr (getD fmrc.1 ("title".toList) (.str []))
           , parent := asStr (getD fmrc.1 ("parent".toList) (.str []))
           , nav_order := asInt (getD fmrc.1 ("nav_order".toList) (.int 999))
           , content := body }
    else none

/-- Python string `<` (lexicographic by code point). -/
def pyStrLt : List Char → List Char → Bool
  | [], [] => false
  | [], _ :: _ => true
  | _ :: _, [] => false
  | a :: s, b :: t => if a = b then pyStrLt s t else decide (a < b)

/-- Python string `<=`. -/
def pyStrLe (a b : List Char) : Bool := pyStrLt a b || a == b

/-- The key comparison of `sorted(md_files, key=lambda x: (x['parent'],
x['nav_order']))` (source line 93): non-strict lexicographic order on the
tuple. -/
def recKeyLe (r s : MdRecord) : Bool :=
  if r.parent = s.parent then decide (r.nav_order ≤ s.nav_order)
  else pyStrLt r.parent s.parent

/-- The sort-key relation as a proposition. -/
def RecLe (r s : MdRecord) : Prop := recKeyLe r s = true

instance : DecidableRel RecLe := fun r s => inferInstanceAs (Decidable (recKeyLe r s = true))

/-- The sort of source line 93.  Python's `sorted` is a stable sort by the
key; insertion sort with the non-strict key comparison is exactly such a
stable sort. -/
def sortRecords (l : List MdRecord) : List MdRecord := List.insertionSort RecLe l

/-- The sort key of a record. -/
def recKey (r : MdRecord) : List Char × Int := (r.parent, r.nav_order)

/-- The anchor derivation of source line 132: lowercase, spaces to hyphens,
then strip parentheses, commas and ampersands, in the source's order. -/
def anchor_of (t : List Char) : List Char :=
  (((((t.map Char.toLower).map fun c => if c = ' ' then '-' else c).filter
    fun c => c != '(').filter fun c => c != ')').filter fun c => c != ',').filter
    fun c => c != '&'

/-- The ampersand escaping of source lines 129 and 133:
`replace('&', '\\&')`. -/
def escapeAmp (s : List Char) : List Char :=
  s.flatMap fun c => if c = '&' then ['\\', '&'] else [c]

/-- The TOC link line for one record (source line 134). -/
def tocLine (r : MdRecord) : List Char :=
  ("- [".toList) ++ escapeAmp r.title ++ ("](#".toList) ++ anchor_of r.title ++ (")\n".toList)

/-- The TOC block for one parent category (source lines 129-135). -/
def tocGroup (files : List MdRecord) (p : List Char) : List Char :=
  ("## ".toList) ++ escapeAmp p ++ ("\n\n".toList)
    ++ (List.map tocLine (files.filter fun r => r.parent == p)).flatten
    ++ ("\n".toList)

/-- The category keys in emission order: `sorted(parent_groups.items())`
(source line 128) sorts the distinct parent keys lexicographically (the
`defaultdict` groups per parent in encounter order). -/
def sortedParents (files : List MdRecord) : List (List Char) :=
  List.insertionSort (fun a b => pyStrLe a b = true) ((files.map MdRecord.parent).dedup)

/-- `generate_custom_toc` (source lines 120-138). -/
def generate_custom_toc (files : List MdRecord) : List Char :=
  ("# Table of Contents\n\n".toList)
    ++ (List.map (tocGroup files) (sortedParents files)).flatten
    ++ ("\n\\newpage\n\n".toList)

/-- File-system state visible to the render step: whether the temporary
aggregated-markdown artifact currently exists. -/
structure FsState where
  tempExists : Bool
deriving DecidableEq

/-- The statements occurring in `compile_with_pandoc` (source lines 247-262):
temp-file creation via `create_temp_markdown` (the `NamedTemporaryFile` call
at source line 204 creates the file on disk, and the rest of
`create_temp_markdown` can then raise before returning — a `write` failure,
or `generate_custom_toc` at source line 211 raising on a non-string title —
so `createTemp ok` leaves the file existing and raises when `ok := false`;
if `NamedTemporaryFile` itself fails no artifact exists, so nothing can
leak on that sub-path and it is not modelled separately), the renderer
subprocess (`ok := false` models a non-zero exit or a launch failure, both
raised as exceptions by `subprocess.run`), logging (`ok := false` models an
unexpected exception), conditional temp-file removal, sequencing, and
`try`/`except Exception`/`finally`. -/
inductive Stmt where
  | createTemp (ok : Bool)
  | extRun (ok : Bool)
  | note (ok : Bool)
  | removeTempIfExists
  | seq (a b : Stmt)
  | tryEF (body handler finalizer : Stmt)

/-- Execution of a statement: the final state, and whether an exception
escapes.  A raised exception aborts the rest of a `seq`.  `tryEF` runs the
handler only when the body raises, and the finalizer on every path (Python
`finally`); an exception raised by the handler propagates after the
finalizer has run. -/
def execStmt : Stmt → FsState → FsState × Bool
  | .createTemp ok, _ => ({ tempExists := true }, !ok)
  | .extRun ok, s => (s, !ok)
  | .note ok, s => (s, !ok)
  | .removeTempIfExists, _ => ({ tempExists := false }, false)
  | .seq a b, s =>
    match execStmt a s with
    | (s1, false) => execStmt b s1
    | (s1, true) => (s1, true)
  | .tryEF body handler fin, s =>
    match execStmt body s with
    | (s1, false) => execStmt fin s1
    | (s1, true) =>
      match execStmt handler s1 with
      | (s2, e2) =>
        match execStmt fin s2 with
        | (s3, e3) => (s3, e2 || e3)

/-- `compile_with_pandoc` (source lines 247-262): create the temporary
markdown artifact (source line 249, before the `try`), then `try` the
renderer and the success logging, `except Exception` log the error,
`finally` remove the artifact if it exists. -/
def compile_with_pandoc (createOk runOk printsOk handlerOk : Bool) : Stmt :=
  .seq (.createTemp createOk)
    (.tryEF (.seq (.extRun runOk) (.note printsOk))
      (.note handlerOk)
      .removeTempIfExists)

/-- A parser that always fails (used by witnesses). -/
def parseNone : List Char → Option FM := fun _ => none

/-- A parser returning only a navigation order (used by witnesses). -/
def parseNav1 : List Char → Option FM := fun _ => some [(("nav_order".toList), FMVal.int 1)]

/-- A parser returning a single title entry (used by witnesses). -/
def parseTitleA : List Char → Option FM := fun _ => some [(("title".toList), FMVal.str ("a".toList))]

/-- A parser returning an empty mapping (used by witnesses). -/
def parseEmpty : List Char → Option FM := fun _ => some []

/-- Record with key `("B", 1)` for the sorting example. -/
def recB1 : MdRecord := { title := ("b1".toList), parent := ("B".toList), nav_order := 1, content := [] }

/-- Record with key `("A", 2)` for the sorting example. -/
def recA2 : MdRecord := { title := ("a2".toList), parent := ("A".toList), nav_order := 2, content := [] }

/-- Record with key `("A", 1)` for the sorting example. -/
def recA1 : MdRecord := { title := ("a1".toList), parent := ("A".toList), nav_order := 1, content := [] }

/-- The record of the ampersand-escaping example. -/
def cRecTC : MdRecord :=
  { title := ("Terms & Conditions".toList), parent := ("Legal".toList), nav_order := 1, content := [] }

/-! ## General helper lemmas -/

theorem infix_sandwich {x M Y : List Char} (A B : List Char) (h : x <:+: M)
    (hy : Y = A ++ (M ++ B)) : x <:+: Y := by
  subst hy
  obtain ⟨s, t, rfl⟩ := h
  exact ⟨A ++ s, t ++ B, by simp⟩

theorem findFrom_eq_of_first : ∀ (t : List Char) (o k : Nat),
    ['-', '-', '-'].isPrefixOf (t.drop k) = true →
    (∀ i, i < k → ['-', '-', '-'].isPrefixOf (t.drop i) = false) →
    findFrom o t = some (o + k)
  | [], _, k, h, _ => by
    rw [List.drop_nil] at h
    exact absurd h (by decide)
  | c :: t, o, 0, h, _ => by
    rw [List.drop_zero] at h
    rw [findFrom, if_pos h, Nat.add_zero]
  | c :: t, o, k + 1, h, hmin => by
    have h0 : ['-', '-', '-'].isPrefixOf (c :: t) = false := by
      have := hmin 0 (Nat.succ_pos k)
      rwa [List.drop_zero] at this
    rw [findFrom, if_neg (by simp [h0])]
    have ih := findFrom_eq_of_first t (o + 1) k (by simpa using h)
      (fun i hi => by simpa using hmin (i + 1) (Nat.succ_lt_succ hi))
    rw [ih]
    congr 1
    omega

theorem pyStrLt_irrefl : ∀ a : List Char, pyStrLt a a = false
  | [] => rfl
  | c :: t => by simp [pyStrLt, pyStrLt_irrefl t]

theorem pyStrLt_trans : ∀ a b c : List Char,
    pyStrLt a b = true → pyStrLt b c = true → pyStrLt a c = true
  | [], [], _, h, _ => by simp [pyStrLt] at h
  | [], _ :: _, [], _, h => by simp [pyStrLt] at h
  | [], _ :: _, _ :: _, _, _ => rfl
  | _ :: _, [], _, h, _ => by simp [pyStrLt] at h
  | _ :: _, _ :: _, [], _, h => by simp [pyStrLt] at h
  | a :: s, b :: t, c :: u, h1, h2 => by
    simp only [pyStrLt] at h1 h2 ⊢
    by_cases hab : a = b
    · subst hab
      by_cases hbc : a = c
      · subst hbc
        simp only [if_pos rfl] at h1 h2 ⊢
        exact pyStrLt_trans s t u h1 h2
      · rw [if_neg hbc] at h2 ⊢
        exact h2
    · by_cases hbc : b = c
      · subst hbc
        rw [if_neg hab] at h1 ⊢
        exact h1
      · rw [if_neg hab] at h1
        rw [if_neg hbc] at h2
        have hac : a < c := lt_trans (of_decide_eq_true h1) (of_decide_eq_true h2)
        rw [if_neg (ne_of_lt hac), decide_eq_true hac]

theorem pyStrLt_total : ∀ a b : List Char,
    a ≠ b → pyStrLt a b = true ∨ pyStrLt b a = true
  | [], [], h => absurd rfl h
  | [], _ :: _, _ => Or.inl rfl
  | _ :: _, [], _ => Or.inr rfl
  | a :: s, b :: t, h => by
    by_cases hab : a = b
    · subst hab
      have hst : s ≠ t := fun he => h (by rw [he])
      rcases pyStrLt_total s t hst with h1 | h1
      · exact Or.inl (by simp [pyStrLt, h1])
      · exact Or.inr (by simp [pyStrLt, h1])
    · rcases lt_or_gt_of_ne hab with hlt | hlt
      · exact Or.inl (by simp [pyStrLt, hab, hlt])
      · exact Or.inr (by simp [pyStrLt, Ne.symm hab, hlt])

theorem recLe_total : ∀ r s : MdRecord, RecLe r s ∨ RecLe s r := by
  intro r s
  unfold RecLe recKeyLe
  by_cases h : r.parent = s.parent
  · rw [if_pos h, if_pos h.symm]
    rcases Int.le_total r.nav_order s.nav_order with h1 | h1
    · exact Or.inl (decide_eq_true h1)
    · exact Or.inr (decide_eq_true h1)
  · rw [if_neg h, if_neg (Ne.symm h)]
    exact pyStrLt_total _ _ h

theorem recLe_trans : ∀ r s t : MdRecord, RecLe r s → RecLe s t → RecLe r t := by
  intro r s t h1 h2
  unfold RecLe recKeyLe at h1 h2 ⊢
  by_cases hrs : r.parent = s.parent
  · rw [if_pos hrs] at h1
    by_cases hst : s.parent = t.parent
    · rw [if_pos hst] at h2
      rw [if_pos (hrs.trans hst)]
      exact decide_eq_true (le_trans (of_decide_eq_true h1) (of_decide_eq_true h2))
    · rw [if_neg hst] at h2
      rw [if_neg (fun he => hst (hrs.symm.trans he)), hrs]
      exact h2
  · rw [if_neg hrs] at h1
    by_cases hst : s.parent = t.parent
    · rw [if_neg (fun he => hrs (he.trans hst.symm)), ← hst]
      exact h1
    · rw [if_neg hst] at h2
      have hlt := pyStrLt_trans _ _ _ h1 h2
      have hne : r.parent ≠ t.parent := by
        intro he
        rw [he] at hlt
        simp [pyStrLt_irrefl] at hlt
      rw [if_neg hne]
      exact hlt

theorem recLe_of_key_eq {r s : MdRecord} (h : recKey r = recKey s) : RecLe r s := by
  unfold recKey at h
  have hp : r.parent = s.parent := congrArg Prod.fst h
  have hn : r.nav_order = s.nav_order := congrArg Prod.snd h
  unfold RecLe recKeyLe
  rw [if_pos hp, hn]
  exact decide_eq_true le_rfl

theorem filter_key_orderedInsert (x : MdRecord) (K : List Char × Int) :
    ∀ L : List MdRecord,
    (List.orderedInsert RecLe x L).filter (fun r => decide (recKey r = K))
      = if recKey x = K then x :: L.filter (fun r => decide (recKey r = K))
        else L.filter (fun r => decide (recKey r = K))
  | [] => by
    simp only [List.orderedInsert, List.filter]
    by_cases h : recKey x = K <;> simp [h]
  | y :: L => by
    by_cases hr : RecLe x y
    · rw [List.orderedInsert, if_pos hr]
      by_cases h : recKey x = K <;> simp [List.filter_cons, h]
    · rw [List.orderedInsert, if_neg hr]
      have ih := filter_key_orderedInsert x K L
      by_cases hx : recKey x = K
      · have hy : recKey y ≠ K := by
          intro hyk
          exact hr (recLe_of_key_eq (hx.trans hyk.symm))
        simp [List.filter_cons, hx, hy, ih]
      · by_cases hy : recKey y = K <;> simp [List.filter_cons, hx, hy, ih]

theorem filter_key_sortRecords (K : List Char × Int) :
    ∀ l : List MdRecord,
    (sortRecords l).filter (fun r => decide (recKey r = K))
      = l.filter (fun r => decide (recKey r = K))
  | [] => rfl
  | x :: l => by
    have ih := filter_key_sortRecords K l
    simp only [sortRecords, List.insertionSort] at ih ⊢
    rw [filter_key_orderedInsert]
    by_cases h : recKey x = K <;> simp [List.filter_cons, h, ih]

/-! ## Support lemmas for Claim C5 -/

theorem splitNl_ne_nil : ∀ s : List Char, splitNl s ≠ []
  | [] => by simp [splitNl]
  | c :: t => by by_cases hc : c = '\n' <;> simp [splitNl, hc]

theorem not_nl_mem_splitNl : ∀ (s l : List Char), l ∈ splitNl s → '\n' ∉ l
  | [], l, hl => by
    simp only [splitNl, List.mem_singleton] at hl
    simp [hl]
  | c :: t, l, hl => by
    by_cases hc : c = '\n'
    · rw [splitNl, if_pos hc] at hl
      rcases List.mem_cons.mp hl with h | h
      · simp [h]
      · exact not_nl_mem_splitNl t l h
    · rw [splitNl, if_neg hc] at hl
      rcases List.mem_cons.mp hl with h | h
      · subst h
        intro hmem
        rcases List.mem_cons.mp hmem with h1 | h1
        · exact hc h1.symm
        · cases hsp : splitNl t with
          | nil => exact splitNl_ne_nil t hsp
          | cons h0 r =>
            apply not_nl_mem_splitNl t h0 (by rw [hsp]; exact List.mem_cons_self _ _)
            rw [hsp] at h1
            simpa using h1
      · exact not_nl_mem_splitNl t l (List.mem_of_mem_tail h)

theorem joinNl_cons_of_ne_nil (l : List Char) (L : List (List Char)) (h : L ≠ []) :
    joinNl (l :: L) = l ++ '\n' :: joinNl L := by
  cases L with
  | nil => exact absurd rfl h
  | cons m r => rfl

theorem reflowGo_nil : ∀ (n : Nat) (prev : Option (List Char)), reflowGo n prev [] = []
  | 0, _ => rfl
  | _ + 1, _ => rfl

theorem wsDash_decomp {s r : List Char} (h : wsDash s = some r) :
    ∃ a b, s = a ++ '\n' :: '-' :: ' ' :: b := by
  unfold wsDash at h
  by_cases hc : (!(s.takeWhile pyWs).isEmpty && (s.takeWhile pyWs).getLast? == some '\n'
      && ['-', ' '].isPrefixOf (s.dropWhile pyWs)) = true
  · have h1 : (s.takeWhile pyWs).getLast? = some '\n' := by
      have := (Bool.and_eq_true _ _).mp hc
      exact eq_of_beq ((Bool.and_eq_true _ _).mp this.1).2
    have h2 : ['-', ' '].isPrefixOf (s.dropWhile pyWs) = true := ((Bool.and_eq_true _ _).mp hc).2
    obtain ⟨u, hu⟩ : ['-', ' '] <+: s.dropWhile pyWs := List.isPrefixOf_iff_prefix.mp h2
    have h3 : s.takeWhile pyWs ≠ [] := by
      intro hnil
      rw [hnil] at h1
      simp at h1
    have h4 : s.takeWhile pyWs = (s.takeWhile pyWs).dropLast ++ ['\n'] := by
      conv_lhs => rw [← List.dropLast_append_getLast h3]
      rw [List.getLast?_eq_getLast _ h3] at h1
      rw [Option.some_inj.mp h1]
    refine ⟨(s.takeWhile pyWs).dropLast, u, ?_⟩
    conv_lhs => rw [← List.takeWhile_append_dropWhile (p := pyWs) (l := s)]
    rw [← hu, h4]
    simp
  · rw [if_neg hc] at h
    cases h

theorem tryCommentBody_decomp : ∀ {cs r : List Char}, tryCommentBody cs = some r →
    ∃ a b, cs = a ++ '\n' :: '-' :: ' ' :: b
  | [], r, h => by cases h
  | c :: t, r, h => by
    rw [tryCommentBody] at h
    by_cases hp : ['-', '-', '>'].isPrefixOf (c :: t) = true
    · rw [if_pos hp] at h
      cases hw : wsDash (t.drop 2) with
      | some r2 =>
        obtain ⟨a, b, hab⟩ := wsDash_decomp hw
        refine ⟨c :: t.take 2 ++ a, b, ?_⟩
        have : t = t.take 2 ++ t.drop 2 := (List.take_append_drop 2 t).symm
        conv_lhs => rw [this]
        rw [hab]
        simp
      | none =>
        rw [hw] at h
        by_cases hc : c = '\n'
        · rw [if_pos hc] at h
          cases h
        · rw [if_neg hc] at h
          obtain ⟨a, b, hab⟩ := tryCommentBody_decomp h
          exact ⟨c :: a, b, by rw [hab]; simp⟩
    · rw [if_neg hp] at h
      by_cases hc : c = '\n'
      · rw [if_pos hc] at h
        cases h
      · rw [if_neg hc] at h
        obtain ⟨a, b, hab⟩ := tryCommentBody_decomp h
        exact ⟨c :: a, b, by rw [hab]; simp⟩

theorem subGo_eq_self : ∀ (n : Nat) (s : List Char),
    (∀ a b : List Char, s ≠ a ++ '\n' :: '-' :: ' ' :: b) → subGo n s = s
  | 0, s, _ => rfl
  | _ + 1, [], _ => rfl
  | n + 1, c :: t, hs => by
    have hnone : (if c = '<' && ['!', '-', '-'].isPrefixOf t then tryCommentBody (t.drop 3)
        else none) = none := by
      by_cases hp : (c = '<' && ['!', '-', '-'].isPrefixOf t) = true
      · rw [if_pos hp]
        cases htc : tryCommentBody (t.drop 3) with
        | none => rfl
        | some r =>
          obtain ⟨a, b, hab⟩ := tryCommentBody_decomp htc
          exfalso
          apply hs (c :: t.take 3 ++ a) b
          have : t = t.take 3 ++ t.drop 3 := (List.take_append_drop 3 t).symm
          conv_lhs => rw [this]
          rw [hab]
          simp
      · rw [if_neg hp]
    rw [subGo, hnone]
    rw [subGo_eq_self n t (fun a b hab => hs (c :: a) b (by rw [hab]; simp))]

theorem joinNl_split_at_nl : ∀ (L : List (List Char)), (∀ l ∈ L, '\n' ∉ l) →
    ∀ a b : List Char, joinNl L = a ++ '\n' :: b →
    ∃ L2 : List (List Char), L2 ≠ [] ∧ (∀ l ∈ L2, l ∈ L) ∧ b = joinNl L2
  | [], _, a, b, h => by
    simp only [joinNl] at h
    exact absurd h.symm (List.append_ne_nil_of_right_ne_nil a (by simp))
  | [l], hno, a, b, h => by
    simp only [joinNl] at h
    exfalso
    exact hno l (List.mem_singleton_self l) (h ▸ List.mem_append_right a (List.mem_cons_self _ _))
  | l :: m :: L, hno, a, b, h => by
    rw [joinNl_cons_of_ne_nil l (m :: L) (by simp)] at h
    rcases List.append_eq_append_iff.mp h with ⟨w, hw1, hw2⟩ | ⟨w, hw1, hw2⟩
    · -- a = l ++ w and '\n' :: joinNl (m :: L) = w ++ '\n' :: b
      cases w with
      | nil =>
        simp only [List.nil_append] at hw2
        refine ⟨m :: L, by simp, fun x hx => List.mem_cons_of_mem l hx, ?_⟩
        exact ((List.cons_eq_cons.mp hw2).2).symm
      | cons x w' =>
        simp only [List.cons_append] at hw2
        have hjoin : joinNl (m :: L) = w' ++ '\n' :: b := (List.cons_eq_cons.mp hw2).2
        obtain ⟨L2, hne, hmem, hb⟩ := joinNl_split_at_nl (m :: L)
          (fun y hy => hno y (List.mem_cons_of_mem l hy)) w' b hjoin
        exact ⟨L2, hne, fun y hy => List.mem_cons_of_mem l (hmem y hy), hb⟩
    · -- l = a ++ w and '\n' :: b = w ++ '\n' :: joinNl (m :: L)
      cases w with
      | nil =>
        simp only [List.nil_append] at hw2
        refine ⟨m :: L, by simp, fun y hy => List.mem_cons_of_mem l hy, ?_⟩
        exact (List.cons_eq_cons.mp hw2).2
      | cons x w' =>
        exfalso
        simp only [List.cons_append] at hw2
        have hx : x = '\n' := ((List.cons_eq_cons.mp hw2).1).symm
        apply hno l (List.mem_cons_self _ _)
        rw [hw1, hx]
        exact List.mem_append_right a (List.mem_cons_self _ _)

theorem joinNl_no_comment_pattern (L : List (List Char))
    (hnl : ∀ l ∈ L, '\n' ∉ l) (hpre : ∀ l ∈ L, ['-', ' '].isPrefixOf l = false) :
    ∀ a b : List Char, joinNl L ≠ a ++ '\n' :: '-' :: ' ' :: b := by
  intro a b heq
  obtain ⟨L2, hne, hmem, hb⟩ := joinNl_split_at_nl L hnl a ('-' :: ' ' :: b) heq
  cases L2 with
  | nil => exact hne rfl
  | cons l2 L2' =>
    cases L2' with
    | nil =>
      have h1 : l2 = '-' :: ' ' :: b := by simpa [joinNl] using hb.symm
      have h2 := hpre l2 (hmem l2 (List.mem_cons_self _ _))
      rw [h1] at h2
      simp [List.isPrefixOf] at h2
    | cons m L2'' =>
      rw [joinNl_cons_of_ne_nil l2 (m :: L2'') (by simp)] at hb
      cases hl2 : l2 with
      | nil =>
        rw [hl2] at hb
        simp only [List.nil_append] at hb
        exact absurd (List.cons_eq_cons.mp hb).1 (by decide)
      | cons x l2t =>
        cases hl2t : l2t with
        | nil =>
          rw [hl2, hl2t] at hb
          simp only [List.cons_append, List.nil_append] at hb
          exact absurd (List.cons_eq_cons.mp (List.cons_eq_cons.mp hb).2).1 (by decide)
        | cons y l2tt =>
          have h2 := hpre l2 (hmem l2 (List.mem_cons_self _ _))
          rw [hl2, hl2t] at hb h2
          simp only [List.cons_append] at hb
          have hx : '-' = x := (List.cons_eq_cons.mp hb).1
          have hy : ' ' = y := (List.cons_eq_cons.mp (List.cons_eq_cons.mp hb).2).1
          rw [← hx, ← hy] at h2
          simp [List.isPrefixOf] at h2


theorem head?_run_append {run acc1 : List (List Char)} (hne : run ≠ []) :
    (run.reverse ++ acc1).head? = run.getLast? := by
  rw [List.head?_append_of_ne_nil _ (by simpa using hne), List.head?_reverse]

theorem head_append_table {run acc1 : List (List Char)} (hne : run ≠ [])
    (htab : ∀ x ∈ run, isTableLine x = true) :
    ∀ h t, run.reverse ++ acc1 = h :: t → h = [] ∨ isTableLine h = true := by
  intro h t hacc
  have h1 : (run.reverse ++ acc1).head? = some h := by rw [hacc]; rfl
  rw [head?_run_append hne] at h1
  have h3 : h ∈ run.reverse := List.mem_of_mem_head? (by rw [List.head?_reverse]; exact h1)
  exact Or.inr (htab h (by simpa using h3))

theorem fmtGo_eq_reflowGo : ∀ (n : Nat) (po : Option Bool) (acc rest : List (List Char)),
    (∀ x ∈ rest, isListLine x = false) →
    (po = none → acc = []) →
    (∀ h t, po = some false → acc = h :: t → isTableLine h = false) →
    (∀ h t, po = some true → acc = h :: t → h = [] ∨ isTableLine h = true) →
    fmtGo n po acc rest = acc.reverse ++ reflowGo n acc.head? rest
  | 0, po, acc, rest, _, _, _, _ => by simp [fmtGo, reflowGo]
  | n + 1, po, acc, [], _, _, _, _ => by simp [fmtGo, reflowGo]
  | n + 1, po, acc, l :: rest, hrest, hnone, hfalse, htrue => by
    have hpre_eq : (match acc.head? with
        | some p => if !isTableLine p && !(pyStrip p).isEmpty then [([] : List Char)] else []
        | none => ([] : List (List Char)))
        = (if (po == some false && !acc.isEmpty && !(pyStrip acc.headI).isEmpty) = true
            then [([] : List Char)] else []) := by
      cases acc with
      | nil =>
        cases po with
        | none => simp
        | some b => simp
      | cons hd tl =>
        cases po with
        | none => exact absurd (hnone rfl) (by simp)
        | some b =>
          cases b with
          | false =>
            have hhd : isTableLine hd = false := hfalse hd tl rfl rfl
            simp [hhd]
          | true =>
            rcases htrue hd tl rfl rfl with h1 | h1
            · subst h1
              simp [pyStrip]
            · simp [h1]
    by_cases htab : isTableLine l = true
    · have htw : (l :: rest).takeWhile isTableLine = l :: rest.takeWhile isTableLine :=
        List.takeWhile_cons_of_pos htab
      have hrun_ne : (l :: rest).takeWhile isTableLine ≠ [] := by rw [htw]; simp
      have htabrun : ∀ x ∈ (l :: rest).takeWhile isTableLine, isTableLine x = true :=
        fun x hx => List.mem_takeWhile_imp hx
      simp only [fmtGo, reflowGo]
      rw [if_pos htab, if_pos htab, hpre_eq]
      cases hdw : (l :: rest).dropWhile isTableLine with
      | nil =>
        rw [fmtGo_eq_reflowGo n (some true) _ []
          (by intro x hx; cases hx)
          (fun hx => nomatch hx)
          (fun h t hx => nomatch hx)
          (fun h t _ hacc => head_append_table hrun_ne htabrun h t hacc)]
        rw [reflowGo_nil, reflowGo_nil]
        by_cases hb : (po == some false && !acc.isEmpty && !(pyStrip acc.headI).isEmpty) = true
        · rw [if_pos hb, if_pos hb]
          simp
        · rw [if_neg hb, if_neg hb]
          simp
      | cons m rtail =>
        have hsub : ∀ x ∈ m :: rtail, x ∈ l :: rest := by
          rw [← hdw]
          exact fun x hx => (List.dropWhile_sublist _).subset hx
        dsimp only
        by_cases hm : (!isTableLine m && !(pyStrip m).isEmpty) = true
        · rw [if_pos hm, if_pos hm]
          rw [fmtGo_eq_reflowGo n (some true) _ (m :: rtail)
            (fun x hx => hrest x (hsub x hx))
            (fun hx => nomatch hx)
            (fun h t hx => nomatch hx)
            (fun h t _ hacc => Or.inl ((List.cons_eq_cons.mp hacc).1).symm)]
          by_cases hb : (po == some false && !acc.isEmpty && !(pyStrip acc.headI).isEmpty) = true
          · rw [if_pos hb, if_pos hb]
            simp
          · rw [if_neg hb, if_neg hb]
            simp
        · rw [if_neg hm, if_neg hm]
          rw [fmtGo_eq_reflowGo n (some true) _ (m :: rtail)
            (fun x hx => hrest x (hsub x hx))
            (fun hx => nomatch hx)
            (fun h t hx => nomatch hx)
            (fun h t _ hacc => head_append_table hrun_ne htabrun h t hacc)]
          rw [head?_run_append hrun_ne]
          by_cases hb : (po == some false && !acc.isEmpty && !(pyStrip acc.headI).isEmpty) = true
          · rw [if_pos hb, if_pos hb]
            simp
          · rw [if_neg hb, if_neg hb]
            simp
    · have hl : isListLine l = false := hrest l (List.mem_cons_self _ _)
      have htabf : isTableLine l = false := Bool.eq_false_iff.mpr (fun he => htab he)
      simp only [fmtGo, reflowGo]
      rw [if_neg htab, if_neg htab]
      simp only [hl, Bool.false_and, Bool.and_eq_true]
      cases rest with
      | nil =>
        simp only [Bool.false_eq_true, if_false]
        rw [fmtGo_eq_reflowGo n (some false) (l :: acc) []
          (by intro x hx; cases hx)
          (fun hx => nomatch hx)
          (fun h t _ hacc => by
            rw [((List.cons_eq_cons.mp hacc).1).symm]
            exact htabf)
          (fun h t hx => nomatch hx)]
        rw [reflowGo_nil, reflowGo_nil]
        simp
      | cons m rtail =>
        simp only [Bool.false_eq_true, if_false]
        rw [fmtGo_eq_reflowGo n (some false) (l :: acc) (m :: rtail)
          (fun x hx => hrest x (List.mem_cons_of_mem l hx))
          (fun hx => nomatch hx)
          (fun h t _ hacc => by
            rw [((List.cons_eq_cons.mp hacc).1).symm]
            exact htabf)
          (fun h t hx => nomatch hx)]
        simp


theorem mem_if_blank {l : List Char} {b : Bool}
    (h : l ∈ (if b = true then [([] : List Char)] else [])) : l = [] := by
  by_cases hb : b = true
  · rw [if_pos hb] at h
    simpa using h
  · rw [if_neg hb] at h
    cases h

theorem reflowGo_mem : ∀ (n : Nat) (prev : Option (List Char)) (L : List (List Char)),
    ∀ l ∈ reflowGo n prev L, l ∈ L ∨ l = []
  | 0, prev, L, l, hl => Or.inl hl
  | _ + 1, prev, [], l, hl => by cases hl
  | n + 1, prev, lh :: rest, l, hl => by
    by_cases htab : isTableLine lh = true
    · simp only [reflowGo] at hl
      rw [if_pos htab] at hl
      rcases List.mem_append.mp hl with h1 | hrec
      · rcases List.mem_append.mp h1 with h2 | hpost
        · rcases List.mem_append.mp h2 with hpre | hrun
          · cases prev with
            | none => cases hpre
            | some p => exact Or.inr (mem_if_blank hpre)
          · exact Or.inl ((List.takeWhile_sublist _).subset hrun)
        · cases hdw : (lh :: rest).dropWhile isTableLine with
          | nil =>
            rw [hdw] at hpost
            cases hpost
          | cons m rtail =>
            rw [hdw] at hpost
            exact Or.inr (mem_if_blank hpost)
      · rcases reflowGo_mem n _ _ l hrec with h3 | h3
        · exact Or.inl ((List.dropWhile_sublist _).subset h3)
        · exact Or.inr h3
    · simp only [reflowGo] at hl
      rw [if_neg htab] at hl
      rcases List.mem_cons.mp hl with h1 | h1
      · exact Or.inl (h1 ▸ List.mem_cons_self _ _)
      · rcases reflowGo_mem n (some lh) rest l h1 with h2 | h2
        · exact Or.inl (List.mem_cons_of_mem _ h2)
        · exact Or.inr h2

theorem splitNl_append_no_nl : ∀ (u v : List Char), '\n' ∉ u →
    splitNl (u ++ v) = (u ++ (splitNl v).headI) :: (splitNl v).tail
  | [], v, _ => by
    cases hv : splitNl v with
    | nil => exact absurd hv (splitNl_ne_nil v)
    | cons h r => simp [hv]
  | c :: u, v, hnl => by
    have hc : ¬c = '\n' := fun he => hnl (by rw [he]; exact List.mem_cons_self _ _)
    rw [List.cons_append, splitNl, if_neg hc,
      splitNl_append_no_nl u v (fun hm => hnl (List.mem_cons_of_mem c hm))]
    simp

theorem splitNl_joinNl : ∀ L : List (List Char), L ≠ [] → (∀ l ∈ L, '\n' ∉ l) →
    splitNl (joinNl L) = L
  | [], h, _ => absurd rfl h
  | [l], _, hnl => by
    have h1 : splitNl (l ++ []) = (l ++ (splitNl []).headI) :: (splitNl []).tail :=
      splitNl_append_no_nl l [] (hnl l (List.mem_singleton_self l))
    simpa [joinNl, splitNl] using h1
  | l :: m :: L, _, hnl => by
    rw [joinNl_cons_of_ne_nil l (m :: L) (by simp),
      splitNl_append_no_nl l ('\n' :: joinNl (m :: L)) (hnl l (List.mem_cons_self _ _))]
    rw [splitNl, if_pos rfl]
    rw [splitNl_joinNl (m :: L) (by simp) (fun x hx => hnl x (List.mem_cons_of_mem l hx))]
    simp

theorem fmtGo_ne_nil : ∀ (n : Nat) (po : Option Bool) (acc rest : List (List Char)),
    (acc = [] → rest ≠ []) → fmtGo n po acc rest ≠ []
  | 0, po, acc, rest, h => by
    simp only [fmtGo]
    intro he
    rcases List.append_eq_nil.mp he with ⟨h1, h2⟩
    exact h (by simpa using h1) h2
  | _ + 1, po, acc, [], h => by
    simp only [fmtGo]
    intro he
    exact h (by simpa using he) rfl
  | n + 1, po, acc, l :: rest, _ => by
    by_cases htab : isTableLine l = true
    · simp only [fmtGo]
      rw [if_pos htab]
      have hrun : (l :: rest).takeWhile isTableLine = l :: rest.takeWhile isTableLine :=
        List.takeWhile_cons_of_pos htab
      cases hdw : (l :: rest).dropWhile isTableLine with
      | nil =>
        apply fmtGo_ne_nil
        intro hacc3
        exfalso
        rcases List.append_eq_nil.mp hacc3 with ⟨h1, _⟩
        rw [hrun] at h1
        simp at h1
      | cons m rtail =>
        apply fmtGo_ne_nil
        intro _
        simp
    · simp only [fmtGo]
      rw [if_neg htab]
      cases rest with
      | nil =>
        apply fmtGo_ne_nil
        intro hacc3
        simp at hacc3
      | cons m rtail =>
        apply fmtGo_ne_nil
        intro _
        simp

theorem pyStrip_append_ws {ch : Char} (hch : pyWs ch = true) (u : List Char) :
    pyStrip (u ++ [ch]) = pyStrip u := by
  unfold pyStrip
  rw [List.dropWhile_append]
  by_cases hu : (u.dropWhile pyWs).isEmpty = true
  · rw [if_pos hu]
    simp [List.dropWhile, hch, List.isEmpty_iff.mp hu]
  · rw [if_neg hu]
    rw [List.reverse_append]
    simp only [List.reverse_singleton, List.singleton_append, List.dropWhile_cons, hch]
    simp

theorem pyStrip_append_nonws {c : Char} (hc : pyWs c = false) (u : List Char) :
    pyStrip (u ++ [c]) = u.dropWhile pyWs ++ [c] := by
  unfold pyStrip
  rw [List.dropWhile_append]
  by_cases hu : (u.dropWhile pyWs).isEmpty = true
  · rw [if_pos hu]
    simp [List.dropWhile, hc, List.isEmpty_iff.mp hu]
  · rw [if_neg hu]
    rw [List.reverse_append]
    simp only [List.reverse_singleton, List.singleton_append, List.dropWhile_cons, hc]
    simp

theorem isTableLine_false_of_strip_nil {l : List Char} (h : pyStrip l = []) :
    isTableLine l = false := by
  unfold isTableLine
  rw [h]
  rfl

theorem isTableLine_false_of_strip_gt {l u : List Char} (h : pyStrip l = u ++ ['>']) :
    isTableLine l = false := by
  unfold isTableLine
  rw [h]
  have hsuf : ['|'].isSuffixOf (u ++ ['>']) = false := by
    by_cases hs : ['|'].isSuffixOf (u ++ ['>']) = true
    · exfalso
      obtain ⟨w, hw⟩ := List.isSuffixOf_iff_suffix.mp hs
      have h1 : (w ++ ['|']).getLast? = some '|' := List.getLast?_concat _
      rw [hw, List.getLast?_concat] at h1
      cases h1
    · exact Bool.eq_false_iff.mpr hs
  rw [hsuf]
  simp


theorem mem_ite_blank_cons {y : List Char} {L : List (List Char)} {c : Prop} [Decidable c]
    (h : y ∈ if c then [] :: L else L) : y ∈ L ∨ y = [] := by
  by_cases hc : c
  · rw [if_pos hc] at h
    rcases List.mem_cons.mp h with h1 | h1
    · exact Or.inr h1
    · exact Or.inl h1
  · rw [if_neg hc] at h
    exact Or.inl h

theorem fmtGo_mem : ∀ (n : Nat) (po : Option Bool) (acc rest : List (List Char)),
    ∀ x ∈ fmtGo n po acc rest, x ∈ acc ∨ x ∈ rest ∨ x = []
  | 0, po, acc, rest, x, hx => by
    simp only [fmtGo] at hx
    rcases List.mem_append.mp hx with h | h
    · exact Or.inl (List.mem_reverse.mp h)
    · exact Or.inr (Or.inl h)
  | _ + 1, po, acc, [], x, hx => by
    simp only [fmtGo] at hx
    exact Or.inl (List.mem_reverse.mp hx)
  | n + 1, po, acc, l :: rest, x, hx => by
    by_cases htab : isTableLine l = true
    · simp only [fmtGo] at hx
      rw [if_pos htab] at hx
      rcases fmtGo_mem n (some true) _ _ x hx with h | h | h
      · have hacc2 : x ∈ ((l :: rest).takeWhile isTableLine).reverse
            ++ (if (po == some false && !acc.isEmpty && !(pyStrip acc.headI).isEmpty) = true
                then [] :: acc else acc) → x ∈ acc ∨ x ∈ l :: rest ∨ x = [] := by
          intro h2
          rcases List.mem_append.mp h2 with h3 | h3
          · exact Or.inr (Or.inl ((List.takeWhile_sublist _).subset (List.mem_reverse.mp h3)))
          · rcases mem_ite_blank_cons h3 with h4 | h4
            · exact Or.inl h4
            · exact Or.inr (Or.inr h4)
        cases hdw : (l :: rest).dropWhile isTableLine with
        | nil =>
          rw [hdw] at h
          exact hacc2 h
        | cons m rtail =>
          rw [hdw] at h
          rcases mem_ite_blank_cons h with h2 | h2
          · exact hacc2 h2
          · exact Or.inr (Or.inr h2)
      · exact Or.inr (Or.inl ((List.dropWhile_sublist _).subset h))
      · exact Or.inr (Or.inr h)
    · simp only [fmtGo] at hx
      rw [if_neg htab] at hx
      have hacc2 : x ∈ l :: (if (isListLine l && !(po == none) && !acc.isEmpty
            && !(pyStrip acc.headI).isEmpty && !isListLine acc.headI) = true
            then [] :: acc else acc) → x ∈ acc ∨ x ∈ l :: rest ∨ x = [] := by
        intro h2
        rcases List.mem_cons.mp h2 with h3 | h3
        · exact Or.inr (Or.inl (h3 ▸ List.mem_cons_self _ _))
        · rcases mem_ite_blank_cons h3 with h4 | h4
          · exact Or.inl h4
          · exact Or.inr (Or.inr h4)
      cases rest with
      | nil =>
        rcases fmtGo_mem n (some false) _ _ x hx with h | h | h
        · exact hacc2 h
        · cases h
        · exact Or.inr (Or.inr h)
      | cons m rtail =>
        rcases fmtGo_mem n (some false) _ _ x hx with h | h | h
        · rcases mem_ite_blank_cons h with h2 | h2
          · exact hacc2 h2
          · exact Or.inr (Or.inr h2)
        · exact Or.inr (Or.inl (List.mem_cons_of_mem l h))
        · exact Or.inr (Or.inr h)

theorem filter_table_fmtGo : ∀ (n : Nat) (po : Option Bool) (acc rest : List (List Char)),
    (fmtGo n po acc rest).filter isTableLine
      = (acc.filter isTableLine).reverse ++ rest.filter isTableLine
  | 0, po, acc, rest => by
    simp [fmtGo, List.filter_append, List.filter_reverse]
  | _ + 1, po, acc, [] => by
    simp [fmtGo, List.filter_reverse]
  | n + 1, po, acc, l :: rest => by
    have hnil : isTableLine ([] : List Char) = false := by decide
    by_cases htab : isTableLine l = true
    · simp only [fmtGo]
      rw [if_pos htab]
      have hrunfil : ((l :: rest).takeWhile isTableLine).filter isTableLine
          = (l :: rest).takeWhile isTableLine :=
        List.filter_eq_self.mpr (fun x hx => List.mem_takeWhile_imp hx)
      have hsplit : (l :: rest).filter isTableLine
          = (l :: rest).takeWhile isTableLine
            ++ ((l :: rest).dropWhile isTableLine).filter isTableLine := by
        conv_lhs => rw [← List.takeWhile_append_dropWhile (p := isTableLine) (l := l :: rest)]
        rw [List.filter_append, hrunfil]
      cases hdw : (l :: rest).dropWhile isTableLine with
      | nil =>
        rw [filter_table_fmtGo n (some true) _ [], hsplit, hdw]
        by_cases hb : (po == some false && !acc.isEmpty && !(pyStrip acc.headI).isEmpty) = true
        · rw [if_pos hb]
          simp [List.filter_append, List.filter_reverse, hrunfil, List.filter_cons, hnil]
        · rw [if_neg hb]
          simp [List.filter_append, List.filter_reverse, hrunfil]
      | cons m rtail =>
        rw [filter_table_fmtGo n (some true) _ (m :: rtail), hsplit, hdw]
        dsimp only
        by_cases hm : (!isTableLine m && !(pyStrip m).isEmpty) = true
        · rw [if_pos hm]
          by_cases hb : (po == some false && !acc.isEmpty && !(pyStrip acc.headI).isEmpty) = true
          · rw [if_pos hb]
            simp [List.filter_append, List.filter_reverse, hrunfil, List.filter_cons, hnil]
          · rw [if_neg hb]
            simp [List.filter_append, List.filter_reverse, hrunfil, List.filter_cons, hnil]
        · rw [if_neg hm]
          by_cases hb : (po == some false && !acc.isEmpty && !(pyStrip acc.headI).isEmpty) = true
          · rw [if_pos hb]
            simp [List.filter_append, List.filter_reverse, hrunfil, List.filter_cons, hnil]
          · rw [if_neg hb]
            simp [List.filter_append, List.filter_reverse, hrunfil]
    · have htabf : isTableLine l = false := Bool.eq_false_iff.mpr htab
      simp only [fmtGo]
      rw [if_neg htab]
      cases rest with
      | nil =>
        rw [filter_table_fmtGo n (some false) _ []]
        by_cases hc1 : (isListLine l && !(po == none) && !acc.isEmpty
            && !(pyStrip acc.headI).isEmpty && !isListLine acc.headI) = true
        · rw [if_pos hc1]
          simp [List.filter_cons, htabf, hnil]
        · rw [if_neg hc1]
          simp [List.filter_cons, htabf]
      | cons m rtail =>
        rw [filter_table_fmtGo n (some false) _ (m :: rtail)]
        dsimp only
        by_cases hc2 : (isListLine l && !isListLine m && !(pyStrip m).isEmpty) = true
        · rw [if_pos hc2]
          by_cases hc1 : (isListLine l && !(po == none) && !acc.isEmpty
              && !(pyStrip acc.headI).isEmpty && !isListLine acc.headI) = true
          · rw [if_pos hc1]
            simp [List.filter_cons, htabf, hnil]
          · rw [if_neg hc1]
            simp [List.filter_cons, htabf, hnil]
        · rw [if_neg hc2]
          by_cases hc1 : (isListLine l && !(po == none) && !acc.isEmpty
              && !(pyStrip acc.headI).isEmpty && !isListLine acc.headI) = true
          · rw [if_pos hc1]
            simp [List.filter_cons, htabf, hnil]
          · rw [if_neg hc1]
            simp [List.filter_cons, htabf]


theorem wsDash_decomp' {s r : List Char} (h : wsDash s = some r) :
    ∃ W, s = W ++ '-' :: ' ' :: r ∧ (∀ ch ∈ W, pyWs ch = true) ∧ W.getLast? = some '\n' := by
  unfold wsDash at h
  by_cases hc : (!(s.takeWhile pyWs).isEmpty && (s.takeWhile pyWs).getLast? == some '\n'
      && ['-', ' '].isPrefixOf (s.dropWhile pyWs)) = true
  · rw [if_pos hc] at h
    have h1 : (s.takeWhile pyWs).getLast? = some '\n' := by
      have := (Bool.and_eq_true _ _).mp hc
      exact eq_of_beq ((Bool.and_eq_true _ _).mp this.1).2
    have h2 : ['-', ' '].isPrefixOf (s.dropWhile pyWs) = true := ((Bool.and_eq_true _ _).mp hc).2
    obtain ⟨u, hu⟩ : ['-', ' '] <+: s.dropWhile pyWs := List.isPrefixOf_iff_prefix.mp h2
    have hr : r = u := by
      have := Option.some_inj.mp h
      rw [← this, ← hu]
      rfl
    refine ⟨s.takeWhile pyWs, ?_, fun ch hch => List.mem_takeWhile_imp hch, h1⟩
    conv_lhs => rw [← List.takeWhile_append_dropWhile (p := pyWs) (l := s)]
    rw [← hu, hr]
    rfl
  · rw [if_neg hc] at h
    cases h

theorem tryCommentBody_decomp' : ∀ {cs r : List Char}, tryCommentBody cs = some r →
    ∃ A W, cs = A ++ '-' :: '-' :: '>' :: (W ++ '-' :: ' ' :: r)
      ∧ '\n' ∉ A ∧ (∀ ch ∈ W, pyWs ch = true) ∧ W.getLast? = some '\n'
  | [], r, h => by cases h
  | c :: t, r, h => by
    rw [tryCommentBody] at h
    by_cases hp : ['-', '-', '>'].isPrefixOf (c :: t) = true
    · rw [if_pos hp] at h
      cases hw : wsDash (t.drop 2) with
      | some r2 =>
        rw [hw] at h
        have hr2 : r2 = r := Option.some_inj.mp h
        obtain ⟨W, hW, hWws, hWlast⟩ := wsDash_decomp' hw
        obtain ⟨u, hu⟩ : ['-', '-', '>'] <+: c :: t := List.isPrefixOf_iff_prefix.mp hp
        have hu2 : u = t.drop 2 := by
          have := congrArg (List.drop 3) hu
          simpa using this
        refine ⟨[], W, ?_, by simp, hWws, hWlast⟩
        rw [List.nil_append, ← hu, hu2, hW, hr2]
        rfl
      | none =>
        rw [hw] at h
        by_cases hc : c = '\n'
        · rw [if_pos hc] at h
          cases h
        · rw [if_neg hc] at h
          obtain ⟨A, W, hAW, hA, hWws, hWlast⟩ := tryCommentBody_decomp' h
          refine ⟨c :: A, W, by rw [List.cons_append, hAW], ?_, hWws, hWlast⟩
          intro hm
          rcases List.mem_cons.mp hm with h1 | h1
          · exact hc h1.symm
          · exact hA h1
    · rw [if_neg hp] at h
      by_cases hc : c = '\n'
      · rw [if_pos hc] at h
        cases h
      · rw [if_neg hc] at h
        obtain ⟨A, W, hAW, hA, hWws, hWlast⟩ := tryCommentBody_decomp' h
        refine ⟨c :: A, W, by rw [List.cons_append, hAW], ?_, hWws, hWlast⟩
        intro hm
        rcases List.mem_cons.mp hm with h1 | h1
        · exact hc h1.symm
        · exact hA h1

theorem splitNl_ws_block : ∀ (w : List Char), (∀ ch ∈ w, pyWs ch = true) →
    ∀ (u z : List Char), '\n' ∉ u →
    ∃ LP, splitNl (u ++ (w ++ '\n' :: z)) = LP ++ splitNl z
      ∧ ∀ l ∈ LP, pyStrip l = pyStrip u ∨ pyStrip l = []
  | [], _, u, z, hu => by
    refine ⟨[u], ?_, by intro l hl; rw [List.mem_singleton.mp hl]; exact Or.inl rfl⟩
    rw [List.nil_append, splitNl_append_no_nl u ('\n' :: z) hu]
    rw [splitNl, if_pos rfl]
    simp
  | ch :: w, hws, u, z, hu => by
    by_cases hch : ch = '\n'
    · subst hch
      obtain ⟨LP, hLP, hfacts⟩ := splitNl_ws_block w
        (fun x hx => hws x (List.mem_cons_of_mem _ hx)) [] z (by simp)
      rw [List.nil_append] at hLP
      refine ⟨u :: LP, ?_, ?_⟩
      · rw [List.cons_append, splitNl_append_no_nl u ('\n' :: (w ++ '\n' :: z)) hu]
        rw [splitNl, if_pos rfl]
        simp [hLP]
      · intro l hl
        rcases List.mem_cons.mp hl with h1 | h1
        · exact Or.inl (by rw [h1])
        · rcases hfacts l h1 with h2 | h2
          · right
            rw [h2]
            rfl
          · exact Or.inr h2
    · have hchw : pyWs ch = true := hws ch (List.mem_cons_self _ _)
      obtain ⟨LP, hLP, hfacts⟩ := splitNl_ws_block w
        (fun x hx => hws x (List.mem_cons_of_mem _ hx)) (u ++ [ch]) z
        (by
          intro hm
          rcases List.mem_append.mp hm with h1 | h1
          · exact hu h1
          · exact hch (List.mem_singleton.mp h1).symm)
      refine ⟨LP, ?_, ?_⟩
      · rw [← hLP]
        congr 1
        simp
      · intro l hl
        rcases hfacts l hl with h1 | h1
        · rw [pyStrip_append_ws hchw u] at h1
          exact Or.inl h1
        · exact Or.inr h1


theorem splitNl_cons_nl (x : List Char) : splitNl ('\n' :: x) = [] :: splitNl x := by
  rw [splitNl, if_pos rfl]

theorem subGo_cons_none (n : Nat) (c : Char) (t : List Char)
    (h : (if c = '<' && ['!', '-', '-'].isPrefixOf t then tryCommentBody (t.drop 3)
      else none) = none) : subGo (n + 1) (c :: t) = c :: subGo n t := by
  rw [subGo, h]

theorem subGo_cons_some (n : Nat) (c : Char) (t r : List Char)
    (h : (if c = '<' && ['!', '-', '-'].isPrefixOf t then tryCommentBody (t.drop 3)
      else none) = some r) :
    subGo (n + 1) (c :: t) = '\n' :: '\n' :: '-' :: ' ' :: subGo n r := by
  rw [subGo, h]

theorem subGo_table_sublist : ∀ (n : Nat) (s q : List Char), '\n' ∉ q →
    List.Sublist ((splitNl (q ++ s)).filter isTableLine) (splitNl (q ++ subGo n s))
  | 0, s, q, _ => by
    simp only [subGo]
    exact List.filter_sublist _
  | _ + 1, [], q, _ => by
    simp only [subGo]
    exact List.filter_sublist _
  | n + 1, c :: t, q, hq => by
    cases hm : (if c = '<' && ['!', '-', '-'].isPrefixOf t then tryCommentBody (t.drop 3)
        else none) with
    | none =>
      rw [subGo_cons_none n c t hm]
      by_cases hc : c = '\n'
      · subst hc
        rw [splitNl_append_no_nl q ('\n' :: t) hq,
          splitNl_append_no_nl q ('\n' :: subGo n t) hq,
          splitNl_cons_nl t, splitNl_cons_nl (subGo n t)]
        simp only [List.headI_cons, List.tail_cons, List.append_nil]
        have IH0 : List.Sublist ((splitNl t).filter isTableLine) (splitNl (subGo n t)) := by
          have h1 := subGo_table_sublist n t [] (by simp)
          simpa using h1
        by_cases hqt : isTableLine q = true
        · rw [List.filter_cons, if_pos hqt]
          exact IH0.cons₂ q
        · rw [List.filter_cons, if_neg hqt]
          exact IH0.cons q
      · have hq' : '\n' ∉ q ++ [c] := by
          intro hmem
          rcases List.mem_append.mp hmem with h1 | h1
          · exact hq h1
          · exact hc (List.mem_singleton.mp h1).symm
        have hshape1 : q ++ c :: t = (q ++ [c]) ++ t := by simp
        have hshape2 : q ++ c :: subGo n t = (q ++ [c]) ++ subGo n t := by simp
        rw [hshape1, hshape2]
        exact subGo_table_sublist n t (q ++ [c]) hq'
    | some r =>
      rw [subGo_cons_some n c t r hm]
      have hcond : (c = '<' && ['!', '-', '-'].isPrefixOf t) = true := by
        by_cases h2 : (c = '<' && ['!', '-', '-'].isPrefixOf t) = true
        · exact h2
        · rw [if_neg h2] at hm
          cases hm
      have hc : c = '<' := of_decide_eq_true ((Bool.and_eq_true _ _).mp hcond).1
      have hpre : ['!', '-', '-'].isPrefixOf t = true := ((Bool.and_eq_true _ _).mp hcond).2
      have htc : tryCommentBody (t.drop 3) = some r := by
        rw [if_pos hcond] at hm
        exact hm
      obtain ⟨A, W, hbody, hA, hWws, hWlast⟩ := tryCommentBody_decomp' htc
      obtain ⟨u, hu⟩ : ['!', '-', '-'] <+: t := List.isPrefixOf_iff_prefix.mp hpre
      have hu2 : u = t.drop 3 := by
        have h3 := congrArg (List.drop 3) hu
        simpa using h3
      have hWne : W ≠ [] := by
        intro he
        rw [he] at hWlast
        cases hWlast
      have hWsplit : W = W.dropLast ++ ['\n'] := by
        conv_lhs => rw [← List.dropLast_append_getLast hWne]
        rw [List.getLast?_eq_getLast _ hWne] at hWlast
        rw [Option.some_inj.mp hWlast]
      have hshape : q ++ c :: t
          = (q ++ '<' :: '!' :: '-' :: '-' :: (A ++ ['-', '-', '>']))
            ++ (W.dropLast ++ '\n' :: ('-' :: ' ' :: r)) := by
        rw [hc, ← hu, hu2, hbody]
        conv_lhs => rw [hWsplit]
        simp
      have hU : '\n' ∉ q ++ '<' :: '!' :: '-' :: '-' :: (A ++ ['-', '-', '>']) := by
        intro hmem
        rcases List.mem_append.mp hmem with h1 | h1
        · exact hq h1
        · have h2 : '\n' ∈ A := by
            simpa using h1
          exact hA h2
      obtain ⟨LP, hLP, hfacts⟩ := splitNl_ws_block W.dropLast
        (fun x hx => hWws x ((List.dropLast_sublist W).subset hx))
        (q ++ '<' :: '!' :: '-' :: '-' :: (A ++ ['-', '-', '>'])) ('-' :: ' ' :: r) hU
      have hUstrip : ∃ v, pyStrip (q ++ '<' :: '!' :: '-' :: '-' :: (A ++ ['-', '-', '>']))
          = v ++ ['>'] := by
        have hsh : q ++ '<' :: '!' :: '-' :: '-' :: (A ++ ['-', '-', '>'])
            = (q ++ '<' :: '!' :: '-' :: '-' :: (A ++ ['-', '-'])) ++ ['>'] := by simp
        rw [hsh, pyStrip_append_nonws (by decide)]
        exact ⟨_, rfl⟩
      have hLPnt : ∀ l ∈ LP, isTableLine l = false := by
        intro l hl
        rcases hfacts l hl with h1 | h1
        · obtain ⟨v, hv⟩ := hUstrip
          exact isTableLine_false_of_strip_gt (h1.trans hv)
        · exact isTableLine_false_of_strip_nil h1
      have hfilter : (splitNl (q ++ c :: t)).filter isTableLine
          = (splitNl ('-' :: ' ' :: r)).filter isTableLine := by
        rw [hshape, hLP, List.filter_append,
          List.filter_eq_nil_iff.mpr (fun a ha => by simp [hLPnt a ha]), List.nil_append]
      have hout : splitNl (q ++ '\n' :: '\n' :: '-' :: ' ' :: subGo n r)
          = q :: [] :: splitNl ('-' :: ' ' :: subGo n r) := by
        rw [splitNl_append_no_nl q _ hq, splitNl_cons_nl, splitNl_cons_nl]
        simp
      rw [hfilter, hout]
      have IH := subGo_table_sublist n r ['-', ' '] (by decide)
      exact (IH.cons []).cons q

theorem ensure_table_sublist (x : List Char) :
    List.Sublist ((splitNl x).filter isTableLine)
      (splitNl (ensure_proper_markdown_formatting x)) := by
  show List.Sublist _ (splitNl (subComment (joinNl
    (fmtGo ((splitNl x).length + 1) none [] (splitNl x)))))
  have h1 : (fmtGo ((splitNl x).length + 1) none [] (splitNl x)).filter isTableLine
      = (splitNl x).filter isTableLine := by
    rw [filter_table_fmtGo]
    simp
  have h2 : ∀ l ∈ fmtGo ((splitNl x).length + 1) none [] (splitNl x), '\n' ∉ l := by
    intro l hl
    rcases fmtGo_mem _ _ _ _ l hl with h | h | h
    · cases h
    · exact not_nl_mem_splitNl x l h
    · simp [h]
  have h3 : fmtGo ((splitNl x).length + 1) none [] (splitNl x) ≠ [] :=
    fmtGo_ne_nil _ _ _ _ (fun _ => splitNl_ne_nil x)
  have h4 : splitNl (joinNl (fmtGo ((splitNl x).length + 1) none [] (splitNl x)))
      = fmtGo ((splitNl x).length + 1) none [] (splitNl x) :=
    splitNl_joinNl _ h3 h2
  have h5 := subGo_table_sublist
    (joinNl (fmtGo ((splitNl x).length + 1) none [] (splitNl x))).length
    (joinNl (fmtGo ((splitNl x).length + 1) none [] (splitNl x))) [] (by simp)
  rw [List.nil_append, List.nil_append, h4, h1] at h5
  exact h5

/-- Claim C5, counterexample: the normalizer does not change only the
blank-line placement around table runs: an input with no table lines at all
is still changed (blank lines inserted around a list item), and an HTML
comment directly preceding a list item is deleted, changing the sequence of
non-blank lines. -/
theorem c5_counterexample :
    ((splitNl ("a\n- b\nc".toList)).all fun l => !isTableLine l) = true
    ∧ ensure_proper_markdown_formatting ("a\n- b\nc".toList) ≠ ("a\n- b\nc".toList)
    ∧ (splitNl (ensure_proper_markdown_formatting ("a<!--c-->\n- b".toList))).filter
        (fun l => !(pyStrip l).isEmpty)
      ≠ (splitNl ("a<!--c-->\n- b".toList)).filter (fun l => !(pyStrip l).isEmpty) :=
  ⟨by decide, by decide, by decide⟩

/-- Claim C5 (amended): for every input, the normalizer emits every table
line verbatim and in order (the input's table lines are a sublist of the
output's lines); on input consisting only of table lines and prose lines (no
list-item lines), it changes only the blank-line placement around contiguous
table-line runs, per the spec's insertion conditions: it coincides with the
spec-side reflow `reflowSpec`.  (On inputs with list-item lines it also
separates list items with blank lines and rewrites comment-before-list
patterns.)  The example input keeps its three pipe lines verbatim and gains
exactly a blank line before the run. -/
theorem c5_reflow_refines_spec (content : List Char) (h : tableProseOnly content = true) :
    (∀ x : List Char,
      List.Sublist ((splitNl x).filter isTableLine)
        (splitNl (ensure_proper_markdown_formatting x)))
    ∧ ensure_proper_markdown_formatting content = reflowSpec content
    ∧ ensure_proper_markdown_formatting ("a\n|x|y|\n|-|-|\n|1|2|\n".toList)
      = ("a\n\n|x|y|\n|-|-|\n|1|2|\n".toList) := by
  refine ⟨fun x => ensure_table_sublist x, ?_, by decide⟩
  have hclass : ∀ l ∈ splitNl content,
      isListLine l = false ∧ ['-', ' '].isPrefixOf l = false := by
    intro l hl
    have h1 := (List.all_eq_true.mp h) l hl
    simpa using h1
  have heq := fmtGo_eq_reflowGo ((splitNl content).length + 1) none [] (splitNl content)
    (fun x hx => (hclass x hx).1) (fun _ => rfl)
    (fun h1 t hx => nomatch hx) (fun h1 t hx => nomatch hx)
  show subComment (joinNl (fmtGo ((splitNl content).length + 1) none [] (splitNl content)))
      = joinNl (reflowGo ((splitNl content).length + 1) none (splitNl content))
  rw [heq]
  simp only [List.reverse_nil, List.nil_append, List.head?_nil]
  have hmem : ∀ l ∈ reflowGo ((splitNl content).length + 1) none (splitNl content),
      l ∈ splitNl content ∨ l = [] :=
    fun l hl => reflowGo_mem _ _ _ l hl
  have hnl : ∀ l ∈ reflowGo ((splitNl content).length + 1) none (splitNl content),
      '\n' ∉ l := by
    intro l hl
    rcases hmem l hl with h1 | h1
    · exact not_nl_mem_splitNl content l h1
    · simp [h1]
  have hpre : ∀ l ∈ reflowGo ((splitNl content).length + 1) none (splitNl content),
      ['-', ' '].isPrefixOf l = false := by
    intro l hl
    rcases hmem l hl with h1 | h1
    · exact (hclass l h1).2
    · rw [h1]
      rfl
  exact subGo_eq_self _ _
    (joinNl_no_comment_pattern (reflowGo ((splitNl content).length + 1) none (splitNl content))
      hnl hpre)

/-- Witness for C5 on a concrete table-and-prose input. -/
theorem c5_reflow_refines_spec_witness :
    tableProseOnly ("p\n|a|\nq".toList) = true
    ∧ ((∀ x : List Char,
        List.Sublist ((splitNl x).filter isTableLine)
          (splitNl (ensure_proper_markdown_formatting x)))
      ∧ ensure_proper_markdown_formatting ("p\n|a|\nq".toList) = reflowSpec ("p\n|a|\nq".toList)
      ∧ ensure_proper_markdown_formatting ("a\n|x|y|\n|-|-|\n|1|2|\n".toList)
        = ("a\n\n|x|y|\n|-|-|\n|1|2|\n".toList)) :=
  ⟨by decide, c5_reflow_refines_spec _ (by decide)⟩



/-! ## Claims C1, C2, C3, C4 -/

/-- Claim C1, counterexample: the title `"Terms & Conditions"` does not yield
the anchor `"terms-conditions"` (the source replaces spaces by hyphens before
stripping the ampersand, leaving two hyphens). -/
theorem c1_counterexample :
    anchor_of ("Terms & Conditions".toList) ≠ ("terms-conditions".toList) := by decide

/-- Claim C1 (amended): every record's TOC link is emitted with the label
ampersand-escaped and the anchor derived by lowercasing, hyphenating spaces
and stripping parentheses, commas and ampersands; the title
`"Terms & Conditions"` yields the anchor `"terms--conditions"` (the stripped
ampersand leaves a double hyphen), while the link label and the category
heading render the ampersand escaped as `"\&"`. -/
theorem c1_toc_anchor_escaping (files : List MdRecord) (r : MdRecord) (h : r ∈ files) :
    tocLine r <:+: generate_custom_toc files
    ∧ anchor_of ("Terms & Conditions".toList) = ("terms--conditions".toList)
    ∧ escapeAmp ("Terms & Conditions".toList) = ("Terms \\& Conditions".toList)
    ∧ tocLine cRecTC = ("- [Terms \\& Conditions](#terms--conditions)\n".toList)
    ∧ tocGroup [] ("A & B".toList) = ("## A \\& B\n\n\n".toList) := by
  refine ⟨?_, by decide, by decide, by decide, by decide⟩
  have hp : r.parent ∈ sortedParents files := by
    have h1 : r.parent ∈ files.map MdRecord.parent := List.mem_map_of_mem _ h
    simpa [sortedParents] using h1
  have hg : tocGroup files r.parent <:+: (List.map (tocGroup files) (sortedParents files)).flatten :=
    List.infix_of_mem_flatten (List.mem_map_of_mem _ hp)
  have hrf : r ∈ files.filter (fun s => s.parent == r.parent) :=
    List.mem_filter.mpr ⟨h, by simp⟩
  have hl : tocLine r <:+: (List.map tocLine (files.filter fun s => s.parent == r.parent)).flatten :=
    List.infix_of_mem_flatten (List.mem_map_of_mem _ hrf)
  have h2 : tocLine r <:+: tocGroup files r.parent :=
    infix_sandwich (("## ".toList) ++ escapeAmp r.parent ++ ("\n\n".toList)) (("\n".toList)) hl
      (by simp [tocGroup])
  have h3 : tocLine r <:+: (List.map (tocGroup files) (sortedParents files)).flatten :=
    h2.trans hg
  exact infix_sandwich (("# Table of Contents\n\n".toList)) (("\n\\newpage\n\n".toList)) h3
    (by simp [generate_custom_toc])

/-- Witness for C1: the amended claim instantiated at a singleton record
list holding the `"Terms & Conditions"` record. -/
theorem c1_toc_anchor_escaping_witness :
    cRecTC ∈ [cRecTC]
    ∧ (tocLine cRecTC <:+: generate_custom_toc [cRecTC]
      ∧ anchor_of ("Terms & Conditions".toList) = ("terms--conditions".toList)
      ∧ escapeAmp ("Terms & Conditions".toList) = ("Terms \\& Conditions".toList)
      ∧ tocLine cRecTC = ("- [Terms \\& Conditions](#terms--conditions)\n".toList)
      ∧ tocGroup [] ("A & B".toList) = ("## A \\& B\n\n\n".toList)) :=
  ⟨List.mem_cons_self _ _, c1_toc_anchor_escaping [cRecTC] cRecTC (List.mem_cons_self _ _)⟩

/-- Claim C2: when the text begins with the front-matter delimiter, a closing
delimiter is found, and parsing the enclosed block fails, extraction returns
the empty mapping together with the original text unchanged (delimiters and
unparsed block included). -/
theorem c2_parse_failure_original_text (parse : List Char → Option FM) (content : List Char)
    (e : Nat) (h1 : ['-', '-', '-'].isPrefixOf content = true)
    (h2 : find3 content = some e)
    (h3 : parse (pyStrip ((content.drop 3).take (e - 3))) = none) :
    extract_yaml_front_matter parse content = ([], content) := by
  simp [extract_yaml_front_matter, h1, h2, h3]

/-- Witness for C2 on a concrete delimited text with an always-failing
parser. -/
theorem c2_parse_failure_original_text_witness :
    ['-', '-', '-'].isPrefixOf ("---\nx\n---\nbody".toList) = true
    ∧ find3 ("---\nx\n---\nbody".toList) = some 6
    ∧ parseNone (pyStrip ((("---\nx\n---\nbody".toList).drop 3).take (6 - 3))) = none
    ∧ extract_yaml_front_matter parseNone ("---\nx\n---\nbody".toList)
      = ([], ("---\nx\n---\nbody".toList)) :=
  ⟨by decide, by decide, rfl,
    c2_parse_failure_original_text parseNone _ 6 (by decide) (by decide) rfl⟩

/-- Claim C3, counterexample: not every exit path of the render step removes
the temporary artifact.  `create_temp_markdown` is called at source line 249,
before the `try`: when it raises after the temporary file has been created —
a `write` failure, or `generate_custom_toc` (source line 211) raising
`AttributeError` on a non-string front-matter title — the exception
propagates without reaching the `finally`, and the step exits with the
artifact still present. -/
theorem c3_counterexample :
    ((execStmt (compile_with_pandoc false true true true)
        { tempExists := false }).1).tempExists = true
    ∧ (execStmt (compile_with_pandoc false true true true) { tempExists := false }).2 = true :=
  ⟨rfl, rfl⟩

/-- Claim C3 (amended): once `create_temp_markdown` has returned, on every
exit path of the `try`/`except Exception`/`finally` around the renderer
invocation — renderer success, renderer failure (non-zero exit or launch
failure), an unexpected exception while running or logging, even an
exception raised by the handler itself — the temporary aggregated-markdown
artifact is removed before the step returns; only an exception raised inside
`create_temp_markdown` after the temporary file exists (before the `try`)
leaves it behind. -/
theorem c3_temp_file_removed (runOk printsOk handlerOk : Bool) (s : FsState) :
    ((execStmt (compile_with_pandoc true runOk printsOk handlerOk) s).1).tempExists = false := by
  cases runOk <;> cases printsOk <;> cases handlerOk <;> rfl

/-- Claim C4: on input containing only table lines and prose lines (no
list-item lines) that is already well-formatted (a fixed point of the
normalizer), applying the normalizer twice yields the same output as
applying it once. -/
theorem c4_idempotent_on_well_formatted (content : List Char)
    (_h1 : tableProseOnly content = true) (h2 : isWellFormatted content = true) :
    ensure_proper_markdown_formatting (ensure_proper_markdown_formatting content)
      = ensure_proper_markdown_formatting content := by
  have hfix : ensure_proper_markdown_formatting content = content := by
    simpa [isWellFormatted] using h2
  rw [hfix]
  exact hfix

/-- Witness for C4 on a concrete well-formatted table-and-prose text. -/
theorem c4_idempotent_on_well_formatted_witness :
    tableProseOnly ("a\n\n|x|\n\nb".toList) = true
    ∧ isWellFormatted ("a\n\n|x|\n\nb".toList) = true
    ∧ ensure_proper_markdown_formatting
        (ensure_proper_markdown_formatting ("a\n\n|x|\n\nb".toList))
      = ensure_proper_markdown_formatting ("a\n\n|x|\n\nb".toList) :=
  ⟨by decide, by decide, c4_idempotent_on_well_formatted _ (by decide) (by decide)⟩

/-! ## Claims C6, C7, C8, C9, C10 -/

/-- Claim C6: the collected records are sorted by the key (parent category,
navigation order); ties keep discovery order (the sort is stable: for every
key value, the subsequence of records with that key is preserved); the
records with keys `("B",1)`, `("A",2)`, `("A",1)` come out as `("A",1)`,
`("A",2)`, `("B",1)`. -/
theorem c6_records_sorted_stably (l : List MdRecord) :
    List.Sorted RecLe (sortRecords l)
    ∧ (∀ K : List Char × Int,
        (sortRecords l).filter (fun r => decide (recKey r = K))
          = l.filter (fun r => decide (recKey r = K)))
    ∧ sortRecords [recB1, recA2, recA1] = [recA1, recA2, recB1] := by
  haveI : IsTotal MdRecord RecLe := ⟨recLe_total⟩
  haveI : IsTrans MdRecord RecLe := ⟨recLe_trans⟩
  exact ⟨List.sorted_insertionSort RecLe l, fun K => filter_key_sortRecords K l, by decide⟩

/-- Claim C7: a successfully read, non-test file contributes a record exactly
when its extracted front matter has both a `title` and a `parent` key. -/
theorem c7_record_iff_title_and_parent (parse : List Char → Option FM) (content : List Char)
    (h : is_test_file content = false) :
    (process_markdown_file parse content).isSome = true
      ↔ (hasKey (extract_yaml_front_matter parse content).1 ("title".toList) = true
        ∧ hasKey (extract_yaml_front_matter parse content).1 ("parent".toList) = true) := by
  unfold process_markdown_file
  rw [h]
  simp only [Bool.false_eq_true, if_false]
  by_cases hk : hasKey (extract_yaml_front_matter parse content).1 ("title".toList) = true
      ∧ hasKey (extract_yaml_front_matter parse content).1 ("parent".toList) = true
  · rw [if_pos (by rw [Bool.and_eq_true]; exact hk)]
    simpa using hk
  · rw [if_neg (by rw [Bool.and_eq_true]; exact hk)]
    simpa using hk

/-- Witness for C7: a non-test file whose front matter holds only
`nav_order: 1` produces no record (both sides of the equivalence are
false). -/
theorem c7_record_iff_title_and_parent_witness :
    is_test_file ("---\nnav_order: 1\n---\nHello".toList) = false
    ∧ ((process_markdown_file parseNav1 ("---\nnav_order: 1\n---\nHello".toList)).isSome = true
      ↔ (hasKey (extract_yaml_front_matter parseNav1 ("---\nnav_order: 1\n---\nHello".toList)).1
            ("title".toList) = true
        ∧ hasKey (extract_yaml_front_matter parseNav1 ("---\nnav_order: 1\n---\nHello".toList)).1
            ("parent".toList) = true))
    ∧ process_markdown_file parseNav1 ("---\nnav_order: 1\n---\nHello".toList) = none :=
  ⟨by decide, c7_record_iff_title_and_parent parseNav1 _ (by decide), by decide⟩

/-- Claim C8: when the text does not begin with the front-matter opening
delimiter, extraction returns the empty mapping and the original text
unchanged. -/
theorem c8_no_delimiter_identity (parse : List Char → Option FM) (content : List Char)
    (h : ['-', '-', '-'].isPrefixOf content = false) :
    extract_yaml_front_matter parse content = ([], content) := by
  simp [extract_yaml_front_matter, h]

/-- Witness for C8 on a concrete text without a leading delimiter. -/
theorem c8_no_delimiter_identity_witness :
    ['-', '-', '-'].isPrefixOf ("hello world".toList) = false
    ∧ extract_yaml_front_matter parseEmpty ("hello world".toList)
      = ([], ("hello world".toList)) :=
  ⟨by decide, c8_no_delimiter_identity parseEmpty _ (by decide)⟩

/-- Claim C9: for a well-formed front-matter block (leading delimiter,
closing delimiter found at `e`, block parses), the returned body is the exact
substring after the closing delimiter, trimmed of leading and trailing
whitespace (and the returned mapping is the parsed one). -/
theorem c9_body_after_delimiter (parse : List Char → Option FM) (content : List Char)
    (e : Nat) (d : FM) (h1 : ['-', '-', '-'].isPrefixOf content = true)
    (h2 : find3 content = some e)
    (h3 : parse (pyStrip ((content.drop 3).take (e - 3))) = some d) :
    extract_yaml_front_matter parse content = (d, pyStrip (content.drop (e + 3))) := by
  simp [extract_yaml_front_matter, h1, h2, h3]

/-- Witness for C9 on a concrete well-formed text. -/
theorem c9_body_after_delimiter_witness :
    ['-', '-', '-'].isPrefixOf ("---\nx\n---\n  body \n".toList) = true
    ∧ find3 ("---\nx\n---\n  body \n".toList) = some 6
    ∧ parseEmpty (pyStrip ((("---\nx\n---\n  body \n".toList).drop 3).take (6 - 3))) = some []
    ∧ extract_yaml_front_matter parseEmpty ("---\nx\n---\n  body \n".toList)
      = ([], pyStrip (("---\nx\n---\n  body \n".toList).drop (6 + 3))) :=
  ⟨by decide, by decide, rfl,
    c9_body_after_delimiter parseEmpty _ 6 [] (by decide) (by decide) rfl⟩

/-- Claim C10: the extractor closes the front-matter block at the first
occurrence of `"---"` at any index at least 3, whether or not it stands alone
on a line: the parsed block is the text up to that occurrence and the body
starts immediately after it (trimmed). -/
theorem c10_first_triple_closes (parse : List Char → Option FM) (content : List Char)
    (j : Nat) (d : FM) (h1 : ['-', '-', '-'].isPrefixOf content = true)
    (h2 : 3 ≤ j) (h3 : ['-', '-', '-'].isPrefixOf (content.drop j) = true)
    (h4 : ∀ i, i < j → 3 ≤ i → ['-', '-', '-'].isPrefixOf (content.drop i) = false)
    (h5 : parse (pyStrip ((content.drop 3).take (j - 3))) = some d) :
    extract_yaml_front_matter parse content = (d, pyStrip (content.drop (j + 3))) := by
  have hf : find3 content = some j := by
    unfold find3
    have hdrop : (content.drop 3).drop (j - 3) = content.drop j := by
      rw [List.drop_drop]
      congr 1
      omega
    have hmain := findFrom_eq_of_first (content.drop 3) 3 (j - 3) (by rw [hdrop]; exact h3)
      (fun i hi => by
        rw [List.drop_drop, Nat.add_comm 3 i]
        exact h4 (i + 3) (by omega) (by omega))
    rw [hmain]
    congr 1
    omega
  simp [extract_yaml_front_matter, h1, hf, h5]

/-- Witness for C10: the closing `"---"` is found inside the front-matter
value `a---b`, truncating the block there. -/
theorem c10_first_triple_closes_witness :
    ['-', '-', '-'].isPrefixOf ("---\ntitle: a---b\n---\nrest".toList) = true
    ∧ 3 ≤ 12
    ∧ ['-', '-', '-'].isPrefixOf (("---\ntitle: a---b\n---\nrest".toList).drop 12) = true
    ∧ (∀ i, i < 12 → 3 ≤ i →
        ['-', '-', '-'].isPrefixOf (("---\ntitle: a---b\n---\nrest".toList).drop i) = false)
    ∧ parseTitleA (pyStrip ((("---\ntitle: a---b\n---\nrest".toList).drop 3).take (12 - 3)))
      = some [(("title".toList), FMVal.str ("a".toList))]
    ∧ extract_yaml_front_matter parseTitleA ("---\ntitle: a---b\n---\nrest".toList)
      = ([(("title".toList), FMVal.str ("a".toList))],
          pyStrip (("---\ntitle: a---b\n---\nrest".toList).drop (12 + 3))) :=
  ⟨by decide, by decide, by decide, by decide, rfl,
    c10_first_triple_closes parseTitleA _ 12 _ (by decide) (by decide) (by decide) (by decide) rfl⟩

end Combine
